import Mathlib

/-!
Verification of the heading-detection / persona-relevance core of the
Adobe_Hackathon document-intelligence system.  Python strings are embedded as
`List Char`; floating-point relevance scores are embedded as `ℚ` (every score
is a ratio of two small integers computed with a common denominator, so
ordering and threshold comparisons agree with the source's float arithmetic).
-/

/-- Convert a Lean string literal to the `List Char` representation used by the
embedding. -/
def chars (s : String) : List Char := s.data

/-- Whitespace class of Python's `\s` / `str.strip` (ASCII range):
space, tab, newline, carriage return, vertical tab, form feed. -/
def isSpaceChar (c : Char) : Bool :=
  c.toNat = 32 || c.toNat = 9 || c.toNat = 10 || c.toNat = 13 ||
    c.toNat = 11 || c.toNat = 12

/-- ASCII decimal digit. -/
def isDigitCh (c : Char) : Bool := 48 ≤ c.toNat && c.toNat ≤ 57

/-- ASCII uppercase letter. -/
def isUpperCh (c : Char) : Bool := 65 ≤ c.toNat && c.toNat ≤ 90

/-- ASCII lowercase letter. -/
def isLowerCh (c : Char) : Bool := 97 ≤ c.toNat && c.toNat ≤ 122

/-- Word character of Python's `\w` (ASCII range): letter, digit or underscore. -/
def isWordCh (c : Char) : Bool :=
  isUpperCh c || isLowerCh c || isDigitCh c || c.toNat = 95

/-- Lowercase an ASCII character, embedding Python's `str.lower`. -/
def toLowerCh (c : Char) : Char :=
  if isUpperCh c then Char.ofNat (c.toNat + 32) else c

/-- Lowercase a string (`str.lower`). -/
def toLowerStr (l : List Char) : List Char := l.map toLowerCh

/-- Remove trailing whitespace (the right half of Python's `str.strip`). -/
def dropTrail (l : List Char) : List Char :=
  (l.reverse.dropWhile isSpaceChar).reverse

/-- Python's `str.strip()`: remove leading and trailing whitespace. -/
def trimChars (l : List Char) : List Char :=
  dropTrail (l.dropWhile isSpaceChar)

/-- Replace every maximal run of whitespace by a single space: the effect of
`re.sub(r'\s+', ' ', text)` in `clean_text`.  A run contributes its single
`' '` at its last character. -/
def collapseWS : List Char → List Char
  | [] => []
  | [c] => if isSpaceChar c then [' '] else [c]
  | c :: d :: r =>
    if isSpaceChar c then
      if isSpaceChar d then collapseWS (d :: r) else ' ' :: collapseWS (d :: r)
    else c :: collapseWS (d :: r)

/-- Allow-list of `clean_text`'s second regex: a character survives
`re.sub(r'[^\w\s\-\.\,\;\:\!\?\(\)\[\]]', '', text)` iff it is a word
character, whitespace, or one of the listed punctuation marks. -/
def isAllowedCh (c : Char) : Bool :=
  isWordCh c || isSpaceChar c ||
    c = '-' || c = '.' || c = ',' || c = ';' || c = ':' ||
    c = '!' || c = '?' || c = '(' || c = ')' || c = '[' || c = ']'

/-- Embedding of `utils.clean_text`: on empty input return the empty string;
otherwise strip, collapse whitespace runs to single spaces, then delete all
characters outside the allow-list. -/
def clean_text (t : List Char) : List Char :=
  if t = [] then []
  else (collapseWS (trimChars t)).filter isAllowedCh

/-- Python's `text.split('\n')`. -/
def splitNL : List Char → List (List Char)
  | [] => [[]]
  | c :: r =>
    if c = '\n' then [] :: splitNL r
    else
      match splitNL r with
      | [] => [[c]]
      | h :: t => (c :: h) :: t

/-- Python's `text.split('\n\n')`: greedy leftmost scan for the two-character
separator. -/
def splitNN : List Char → List (List Char)
  | [] => [[]]
  | [c] => [[c]]
  | c :: d :: r =>
    if c = '\n' ∧ d = '\n' then [] :: splitNN r
    else
      match splitNN (d :: r) with
      | [] => [[c]]
      | h :: t => (c :: h) :: t

/-- Accumulator loop of `wsSplit`: `acc` holds the current word reversed. -/
def wsSplitAux : List Char → List Char → List (List Char)
  | [], acc => if acc = [] then [] else [acc.reverse]
  | c :: r, acc =>
    if isSpaceChar c then
      if acc = [] then wsSplitAux r [] else acc.reverse :: wsSplitAux r []
    else wsSplitAux r (c :: acc)

/-- Python's whitespace split `str.split()` (no argument): maximal non-space
runs, empty pieces dropped. -/
def wsSplit (l : List Char) : List (List Char) := wsSplitAux l []

/-- Accumulator loop of `wordRuns`: `acc` holds the current run reversed. -/
def wordRunsAux : List Char → List Char → List (List Char)
  | [], acc => if acc = [] then [] else [acc.reverse]
  | c :: r, acc =>
    if isWordCh c then wordRunsAux r (c :: acc)
    else if acc = [] then wordRunsAux r [] else acc.reverse :: wordRunsAux r []

/-- Python's `re.findall(r'\b\w+\b', text)`: the maximal word-character runs of
the text, in order. -/
def wordRuns (l : List Char) : List (List Char) := wordRunsAux l []

/-- Does `hay` start with `needle`? -/
def startsWithCh : List Char → List Char → Bool
  | [], _ => true
  | _ :: _, [] => false
  | n :: ns, h :: hs => n = h && startsWithCh ns hs

/-- Python's substring test `needle in hay`. -/
def containsSub (needle hay : List Char) : Bool :=
  match hay with
  | [] => startsWithCh needle []
  | _ :: hs => startsWithCh needle hay || containsSub needle hs

/-- Python's `" ".join(pieces)`. -/
def joinSp : List (List Char) → List Char
  | [] => []
  | [x] => x
  | x :: y :: r => x ++ ' ' :: joinSp (y :: r)

/-- Heading levels (the Python code uses the strings "H1"/"H2"/"H3"/"BODY"). -/
inductive HLevel where
  | H1 | H2 | H3 | BODY
deriving DecidableEq, Repr

/-- Consume one or more decimal digits (`\d+`); return the rest of the input,
or `none` if the input does not start with a digit. -/
def digits1 (l : List Char) : Option (List Char) :=
  match l with
  | c :: _ => if isDigitCh c then some (l.dropWhile isDigitCh) else none
  | [] => none

/-- Consume `\d+\.` (digits then a literal dot); return the rest. -/
def afterIntDot (l : List Char) : Option (List Char) :=
  match digits1 l with
  | some ('.' :: r) => some r
  | _ => none

/-- Does the input start with a whitespace character? -/
def headSpace (l : List Char) : Bool :=
  match l with
  | c :: _ => isSpaceChar c
  | [] => false

/-- Consume `\s+` then require `[A-Z]`: at least one whitespace character
followed by an uppercase letter. -/
def spacesThenUpper (l : List Char) : Bool :=
  match l with
  | c :: r =>
    isSpaceChar c &&
      (match r.dropWhile isSpaceChar with
       | d :: _ => isUpperCh d
       | [] => false)
  | [] => false

/-- `re.match(r'^\d+\.\s+', t)` of `_determine_level_by_pattern`. -/
def levelPatNdot (l : List Char) : Bool :=
  match afterIntDot l with
  | some r => headSpace r
  | none => false

/-- `re.match(r'^\d+\.\d+\s+', t)`. -/
def levelPatNN (l : List Char) : Bool :=
  match afterIntDot l with
  | some r =>
    match digits1 r with
    | some r2 => headSpace r2
    | none => false
  | none => false

/-- `re.match(r'^\d+\.\d+\.\d+\s+', t)`. -/
def levelPatNNN (l : List Char) : Bool :=
  match afterIntDot l with
  | some r =>
    match afterIntDot r with
    | some r2 =>
      match digits1 r2 with
      | some r3 => headSpace r3
      | none => false
    | none => false
  | none => false

/-- `re.match(r'^\d+\.\s+[A-Z]', t)`: numbered heading pattern. -/
def patNdotUpper (l : List Char) : Bool :=
  match afterIntDot l with
  | some r => spacesThenUpper r
  | none => false

/-- `re.match(r'^\d+\.\d+\s+[A-Z]', t)`: sub-numbered heading pattern. -/
def patNNUpper (l : List Char) : Bool :=
  match afterIntDot l with
  | some r =>
    match digits1 r with
    | some r2 => spacesThenUpper r2
    | none => false
  | none => false

/-- `re.match(r'^\d+\.\d+\.\d+\s+[A-Z]', t)`: sub-sub-numbered heading pattern. -/
def patNNNUpper (l : List Char) : Bool :=
  match afterIntDot l with
  | some r =>
    match afterIntDot r with
    | some r2 =>
      match digits1 r2 with
      | some r3 => spacesThenUpper r3
      | none => false
    | none => false
  | none => false

/-- `re.match(r'^[A-Z][A-Z\s]+$', t)`: the ALL-CAPS heading pattern. -/
def patAllCaps (l : List Char) : Bool :=
  match l with
  | c :: r => isUpperCh c && !r.isEmpty && r.all (fun d => isUpperCh d || isSpaceChar d)
  | [] => false

/-- States of the deterministic scanner for the Title-Case patterns
`^[A-Z][a-z]+(\s+[A-Z][a-z]+)*$` and its `\s*$` variant. -/
inductive TCState where
  | atStart   -- expecting the leading `[A-Z]`
  | needLower -- saw `[A-Z]`, need at least one `[a-z]`
  | inWord    -- inside `[a-z]+`
  | inGap     -- inside an inter-word `\s+` run (or trailing whitespace)
deriving DecidableEq, Repr

/-- Run the Title-Case scanner; `trail` selects the `\s*$` variant that accepts
trailing whitespace after the last word.  The character classes at each state
boundary are disjoint, so this deterministic scan coincides with the regex. -/
def tcRun (trail : Bool) : TCState → List Char → Bool
  | .inWord, [] => true
  | .inGap, [] => trail
  | .atStart, [] => false
  | .needLower, [] => false
  | .atStart, c :: r => isUpperCh c && tcRun trail .needLower r
  | .needLower, c :: r => isLowerCh c && tcRun trail .inWord r
  | .inWord, c :: r =>
    if isLowerCh c then tcRun trail .inWord r
    else isSpaceChar c && tcRun trail .inGap r
  | .inGap, c :: r =>
    if isSpaceChar c then tcRun trail .inGap r
    else isUpperCh c && tcRun trail .needLower r

/-- `re.match(r'^[A-Z][a-z]+(\s+[A-Z][a-z]+)*$', t)`: Title-Case sequence. -/
def patTitleCase (l : List Char) : Bool := tcRun false .atStart l

/-- `re.match(r'^[A-Z][a-z]+(\s+[A-Z][a-z]+)*\s*$', t)`: Title Case with
trailing whitespace allowed. -/
def patTitleCaseTrail (l : List Char) : Bool := tcRun true .atStart l

/-- The `heading_words` vocabulary of `utils.is_heading_candidate`. -/
def headingWordsUtils : List (List Char) :=
  [chars "introduction", chars "conclusion", chars "abstract", chars "summary",
   chars "background", chars "method", chars "methodology", chars "results",
   chars "discussion", chars "analysis", chars "overview", chars "review",
   chars "related work", chars "literature review", chars "chapter",
   chars "section", chars "part", chars "appendix", chars "references"]

/-- Embedding of `utils.is_heading_candidate`: after a strip and a minimum
length of 2, the text is heading-like if it matches one of the four lexical
patterns or contains one of the heading keywords case-insensitively. -/
def is_heading_candidate (t : List Char) : Bool :=
  if t = [] || (trimChars t).length < 2 then false
  else
    let s := trimChars t
    patAllCaps s || patNdotUpper s || patTitleCase s || patTitleCaseTrail s ||
      headingWordsUtils.any (fun w => containsSub w (toLowerStr s))

/-- A heading candidate as built by the three strategies of
`OutlineExtractor`: text, level, page, and the originating line number when
the candidate came from a line scan. -/
structure Heading where
  text : List Char
  level : HLevel
  page : Nat
  line : Option Nat
deriving DecidableEq, Repr

/-- The `heading_patterns` list of `OutlineExtractor.__init__`, folded by
`_matches_heading_pattern`'s any-of loop. -/
def matchesHeadingPattern (s : List Char) : Bool :=
  patAllCaps s || patNdotUpper s || patNNUpper s || patNNNUpper s ||
    patTitleCase s || patTitleCaseTrail s

/-- Embedding of `OutlineExtractor._determine_level_by_pattern`: an ordered
checklist, first matching rule wins. -/
def determine_level_by_pattern (s : List Char) : HLevel :=
  if levelPatNdot s then .H1
  else if levelPatNN s then .H2
  else if levelPatNNN s then .H3
  else if patAllCaps s then .H1
  else if patTitleCase s then .H2
  else .H3

/-- The `heading_keywords` vocabulary of `OutlineExtractor.__init__`. -/
def headingKeywordsExtractor : List (List Char) :=
  headingWordsUtils ++
    [chars "executive summary", chars "table of contents", chars "acknowledgments"]

/-- Embedding of `OutlineExtractor._contains_heading_keywords`. -/
def containsHeadingKeywords (s : List Char) : Bool :=
  headingKeywordsExtractor.any (fun w => containsSub w (toLowerStr s))

/-- Embedding of `OutlineExtractor._determine_level_by_content`. -/
def determine_level_by_content (s : List Char) : HLevel :=
  let lw := toLowerStr s
  if [chars "introduction", chars "conclusion", chars "abstract", chars "summary",
      chars "chapter"].any (fun w => containsSub w lw) then .H1
  else if [chars "method", chars "methodology", chars "results", chars "discussion",
           chars "analysis", chars "background"].any (fun w => containsSub w lw) then .H2
  else if [chars "overview", chars "review", chars "related work",
           chars "literature review"].any (fun w => containsSub w lw) then .H3
  else .H3

/-- Embedding of `OutlineExtractor._extract_headings_by_pattern`: scan the
lines, strip each, skip blank or one-character lines, and emit a candidate at
page 1 with the originating line number for each pattern match. -/
def extract_headings_by_pattern (text : List Char) : List Heading :=
  (List.enumFrom 1 (splitNL text)).filterMap (fun p =>
    let s := trimChars p.2
    if s.isEmpty || s.length < 2 then none
    else if matchesHeadingPattern s then
      some ⟨s, determine_level_by_pattern s, 1, some p.1⟩
    else none)

/-- Embedding of `OutlineExtractor._extract_headings_by_content`: same line
scan, keyword containment instead of patterns. -/
def extract_headings_by_content (text : List Char) : List Heading :=
  (List.enumFrom 1 (splitNL text)).filterMap (fun p =>
    let s := trimChars p.2
    if s.isEmpty || s.length < 2 then none
    else if containsHeadingKeywords s then
      some ⟨s, determine_level_by_content s, 1, some p.1⟩
    else none)

/-- A document section as built by `utils.segment_text_by_sections` and then
stamped by the analyzer: anchoring heading title, accumulated content lines,
page (always 1 at this stage) and owning document identifier (empty until the
analyzer sets it). -/
structure Section where
  title : List Char
  content : List (List Char)
  page : Nat
  document : List Char
deriving DecidableEq, Repr

/-- The line scan of `segment_text_by_sections`: blank lines are skipped, a
heading-like line closes the current section (kept only if it has content) and
opens a new one, any other line is appended to the current content. -/
def segLoop (lines : List (List Char)) (curTitle : List Char)
    (curContent : List (List Char)) : List Section :=
  match lines with
  | [] => if curContent = [] then [] else [⟨curTitle, curContent, 1, []⟩]
  | l :: rest =>
    let t := trimChars l
    if t = [] then segLoop rest curTitle curContent
    else if is_heading_candidate t then
      (if curContent = [] then [] else [⟨curTitle, curContent, 1, []⟩]) ++
        segLoop rest t []
    else segLoop rest curTitle (curContent ++ [t])

/-- Embedding of `utils.segment_text_by_sections`. -/
def segment_text_by_sections (text : List Char) : List Section :=
  segLoop (splitNL text) [] []

/-- Number of keywords hitting the (already lowercased) text: each keyword
contributes at most 1 however often it occurs (`sum(1 for keyword in kws if
keyword.lower() in text_lower)`). -/
def countHits (kws : List (List Char)) (lowText : List Char) : Nat :=
  kws.countP (fun k => containsSub (toLowerStr k) lowText)

/-- The shared keyword-density formula of `rank_sections_by_relevance` and
`_generate_sub_section_analysis`: distinct-keyword hit count over the total
number of keywords, 0 when there are no keywords. -/
def densityScore (lowText : List Char) (pk jk : List (List Char)) : ℚ :=
  let total := countHits pk lowText + countHits jk lowText
  let denom := pk.length + jk.length
  if denom = 0 then 0 else (total : ℚ) / (denom : ℚ)

/-- A section together with its `importance_rank` score. -/
structure ScoredSection where
  sec : Section
  score : ℚ
deriving DecidableEq, Repr

/-- Stable descending insertion by a rational key: `x` is placed before the
first already-inserted element whose key is not greater, so earlier input
elements precede later ones on equal keys. -/
def insDesc {α : Type} (key : α → ℚ) (x : α) : List α → List α
  | [] => [x]
  | y :: l => if key x < key y then y :: insDesc key x l else x :: y :: l

/-- Stable descending sort by a rational key: the embedding of Python's stable
`list.sort(key=..., reverse=True)`. -/
def sortDescBy {α : Type} (key : α → ℚ) : List α → List α
  | [] => []
  | x :: l => insDesc key x (sortDescBy key l)

/-- Embedding of `utils.rank_sections_by_relevance`: score every section with
the density formula over its space-joined lowercased content, then stable-sort
descending by score. -/
def rank_sections_by_relevance (sections : List Section)
    (pk jk : List (List Char)) : List ScoredSection :=
  sortDescBy (fun ss => ss.score)
    (sections.map (fun s => ⟨s, densityScore (toLowerStr (joinSp s.content)) pk jk⟩))

/-- An entry of `sub_section_analysis`. -/
structure SubSection where
  document : List Char
  page_number : Nat
  refined_text : List Char
  importance_rank : ℚ
deriving DecidableEq, Repr

/-- Paragraph split of `_generate_sub_section_analysis`:
`[p.strip() for p in content.split('\n\n') if p.strip()]`. -/
def splitParas (content : List Char) : List (List Char) :=
  ((splitNN content).map trimChars).filter (fun p => !p.isEmpty)

/-- The paragraph pool of `_generate_sub_section_analysis` before sorting: for
each section, the first three paragraphs of its joined content, each scored
independently by the density formula, kept only when scoring strictly above
0.1, with the surviving text truncated to 500 characters. -/
def pooledSubs (sections : List Section) (pk jk : List (List Char)) : List SubSection :=
  sections.flatMap (fun s =>
    ((splitParas (joinSp s.content)).take 3).filterMap (fun p =>
      let sc := densityScore (toLowerStr p) pk jk
      if 1/10 < sc then some ⟨s.document, s.page, p.take 500, sc⟩ else none))

/-- Embedding of `PersonaAnalyzer._generate_sub_section_analysis`: pool the
surviving paragraphs, stable-sort descending by score, keep the top 20. -/
def generate_sub_section_analysis (sections : List Section)
    (pk jk : List (List Char)) : List SubSection :=
  (sortDescBy (fun e => e.importance_rank) (pooledSubs sections pk jk)).take 20

/-- The `persona_keywords` table of `PersonaAnalyzer.__init__`, in insertion
order (Python dicts iterate in insertion order). -/
def personaKeywordTable : List (List Char × List (List Char)) :=
  [(chars "researcher",
    [chars "methodology", chars "analysis", chars "results", chars "conclusion",
     chars "hypothesis", chars "experiment", chars "data", chars "statistical",
     chars "correlation", chars "significance", chars "literature review",
     chars "related work", chars "background", chars "framework"]),
   (chars "student",
    [chars "introduction", chars "overview", chars "concept", chars "definition",
     chars "example", chars "explanation", chars "summary", chars "key points",
     chars "important", chars "fundamental", chars "basic", chars "principles",
     chars "theory", chars "practice"]),
   (chars "analyst",
    [chars "trend", chars "analysis", chars "performance", chars "metrics",
     chars "data", chars "statistics", chars "comparison", chars "benchmark",
     chars "evaluation", chars "assessment", chars "insights", chars "findings",
     chars "recommendations", chars "strategy"]),
   (chars "manager",
    [chars "executive summary", chars "overview", chars "strategy", chars "planning",
     chars "goals", chars "objectives", chars "implementation", chars "timeline",
     chars "budget", chars "resources", chars "team", chars "leadership",
     chars "decision", chars "action"]),
   (chars "journalist",
    [chars "news", chars "story", chars "event", chars "interview", chars "quote",
     chars "source", chars "background", chars "context", chars "timeline",
     chars "impact", chars "reaction", chars "statement", chars "announcement",
     chars "development"])]

/-- The `job_keywords` table of `PersonaAnalyzer.__init__`, in insertion order. -/
def jobKeywordTable : List (List Char × List (List Char)) :=
  [(chars "literature review",
    [chars "previous work", chars "related research", chars "background",
     chars "methodology", chars "findings", chars "conclusion", chars "limitations",
     chars "future work"]),
   (chars "exam preparation",
    [chars "key concepts", chars "important", chars "definition", chars "example",
     chars "practice", chars "review", chars "summary", chars "main points",
     chars "fundamental"]),
   (chars "market analysis",
    [chars "market", chars "trend", chars "competition", chars "revenue",
     chars "growth", chars "strategy", chars "performance", chars "analysis",
     chars "forecast", chars "opportunity"]),
   (chars "financial analysis",
    [chars "financial", chars "revenue", chars "profit", chars "loss",
     chars "investment", chars "budget", chars "expense", chars "income",
     chars "balance", chars "cash flow"]),
   (chars "technical review",
    [chars "technology", chars "system", chars "architecture", chars "implementation",
     chars "design", chars "performance", chars "efficiency", chars "optimization",
     chars "scalability"])]

/-- The fixed fallback keyword set for an unknown persona. -/
def genericPersonaKeywords : List (List Char) :=
  [chars "important", chars "key", chars "main", chars "primary", chars "essential",
   chars "critical", chars "analysis", chars "review", chars "summary",
   chars "overview", chars "background"]

/-- Embedding of `PersonaAnalyzer._extract_persona_keywords`: first table key
occurring as a substring of the lowercased persona wins; failing that, the
first key one of whose whitespace-separated words occurs; failing that, the
fixed generic set. -/
def extract_persona_keywords (persona : List Char) : List (List Char) :=
  let pl := toLowerStr persona
  match personaKeywordTable.find? (fun kv => containsSub kv.1 pl) with
  | some kv => kv.2
  | none =>
    match personaKeywordTable.find?
        (fun kv => (wsSplit kv.1).any (fun w => containsSub w pl)) with
    | some kv => kv.2
    | none => genericPersonaKeywords

/-- Embedding of `PersonaAnalyzer._extract_job_keywords`: same two lookup
phases over the job table; failing both, the first ten words of more than
three characters found in the lowercased job text (duplicates retained). -/
def extract_job_keywords (job : List Char) : List (List Char) :=
  let jl := toLowerStr job
  match jobKeywordTable.find? (fun kv => containsSub kv.1 jl) with
  | some kv => kv.2
  | none =>
    match jobKeywordTable.find?
        (fun kv => (wsSplit kv.1).any (fun w => containsSub w jl)) with
    | some kv => kv.2
    | none => ((wordRuns jl).filter (fun w => 3 < w.length)).take 10

/-- An input document as the analyzer receives it from the PDF extractor. -/
structure Document where
  file_path : List Char
  text : List Char
  title : List Char
deriving DecidableEq, Repr

/-- An entry of `extracted_sections`. -/
structure ExtractedSection where
  document : List Char
  page_number : Nat
  section_title : List Char
  importance_rank : ℚ
deriving DecidableEq, Repr

/-- The record returned by `PersonaAnalyzer.analyze_documents`.  The
`processing_timestamp` metadata field is supplied by an external clock and is
omitted from the embedding. -/
structure AnalysisResult where
  input_documents : List (List Char)
  persona : List Char
  job_to_be_done : List Char
  extracted_sections : List ExtractedSection
  sub_section_analysis : List SubSection
deriving DecidableEq, Repr

/-- Embedding of `PersonaAnalyzer.analyze_documents`: resolve both keyword
sets, segment every document with non-empty text and stamp its sections with
the document identifier and page 1, rank the pooled sections, keep the top 10,
and derive the sub-section analysis from those top sections. -/
def analyze_documents (documents : List Document) (persona job : List Char) :
    AnalysisResult :=
  let pk := extract_persona_keywords persona
  let jk := extract_job_keywords job
  let allSections := documents.flatMap (fun d =>
    if d.text = [] then []
    else (segment_text_by_sections d.text).map
      (fun s => { s with document := d.file_path, page := 1 }))
  let ranked := rank_sections_by_relevance allSections pk jk
  let top := ranked.take 10
  { input_documents := documents.map (fun d => d.file_path)
    persona := persona
    job_to_be_done := job
    extracted_sections :=
      top.map (fun ss => ⟨ss.sec.document, ss.sec.page, ss.sec.title, ss.score⟩)
    sub_section_analysis :=
      generate_sub_section_analysis (top.map (fun ss => ss.sec)) pk jk }

/-- A font-tagged text block from the PDF extractor's page metadata. -/
structure Block where
  text : List Char
  font_size : ℚ
  font_name : List Char
deriving DecidableEq, Repr

/-- One page of extractor metadata. -/
structure PdfPage where
  page_number : Nat
  text_blocks : List Block
deriving DecidableEq, Repr

/-- Embedding of `utils.normalize_font_size`: bucket a font size. -/
def normalize_font_size (fs : ℚ) : Nat :=
  if 16 ≤ fs then 3 else if 14 ≤ fs then 2 else if 12 ≤ fs then 1 else 0

/-- Embedding of `utils.get_heading_level` (the font strategy passes the font
name in the `font_weight` parameter): size bucket, +1 for a bold font name, +1
for heading-like text, mapped to H1/H2/H3/BODY. -/
def get_heading_level (fs : ℚ) (fontWeight : List Char) (t : List Char) : HLevel :=
  let n0 := normalize_font_size fs
  let n1 := if fontWeight ≠ [] ∧ containsSub (chars "bold") (toLowerStr fontWeight)
    then n0 + 1 else n0
  let n2 := if t ≠ [] ∧ is_heading_candidate t then n1 + 1 else n1
  if 3 ≤ n2 then .H1 else if 2 ≤ n2 then .H2 else if 1 ≤ n2 then .H3 else .BODY

/-- Embedding of `OutlineExtractor._is_font_heading`. -/
def is_font_heading (fs : ℚ) (fontName : List Char) (t : List Char) : Bool :=
  decide (14 ≤ fs) || containsSub (chars "bold") (toLowerStr fontName) ||
    containsSub (chars "black") (toLowerStr fontName) || is_heading_candidate t

/-- Embedding of `OutlineExtractor._extract_headings_by_font`: every block of
every page whose stripped text has length at least 2 and which looks like a
heading by font yields a candidate, except when the level maps to BODY. -/
def extract_headings_by_font (pages : List PdfPage) : List Heading :=
  pages.flatMap (fun pg =>
    pg.text_blocks.filterMap (fun b =>
      let t := trimChars b.text
      if t.isEmpty || t.length < 2 then none
      else if is_font_heading b.font_size b.font_name t then
        let lv := get_heading_level b.font_size b.font_name t
        if lv ≠ .BODY then some ⟨t, lv, pg.page_number, none⟩ else none
      else none))

/-- The deduplication key of `_deduplicate_headings`:
`heading["text"].lower().strip()`. -/
def dedupKey (h : Heading) : List Char := trimChars (toLowerStr h.text)

/-- The seen-set fold inside `OutlineExtractor._deduplicate_headings`. -/
def dedupAux (seen : List (List Char)) : List Heading → List Heading
  | [] => []
  | h :: rest =>
    if dedupKey h ∈ seen then dedupAux seen rest
    else h :: dedupAux (dedupKey h :: seen) rest

/-- Embedding of `OutlineExtractor._deduplicate_headings`: keep the first
candidate for each lowercased-and-stripped text, drop every later one. -/
def deduplicate_headings (hs : List Heading) : List Heading :=
  dedupAux [] hs

/-- Stable ascending insertion by page number (Python's stable
`list.sort(key=lambda x: x.get("page", 1))`). -/
def insAscPage (x : Heading) : List Heading → List Heading
  | [] => [x]
  | y :: l => if y.page < x.page then y :: insAscPage x l else x :: y :: l

/-- Stable ascending sort by page number. -/
def sortByPageAsc : List Heading → List Heading
  | [] => []
  | x :: l => insAscPage x (sortByPageAsc l)

/-- The single adjacent-swap pass of `_sort_headings`: two consecutive
candidates on the same page that both carry line numbers are swapped when out
of line order; after a swap the moved element is compared with the next one,
exactly as the Python index loop does after an in-place swap. -/
def bubblePass : List Heading → List Heading
  | a :: b :: rest =>
    match a.line, b.line with
    | some la, some lb =>
      if a.page = b.page ∧ lb < la then b :: bubblePass (a :: rest)
      else a :: bubblePass (b :: rest)
    | _, _ => a :: bubblePass (b :: rest)
  | l => l
termination_by l => l.length
decreasing_by all_goals simp

/-- Embedding of `OutlineExtractor._sort_headings`. -/
def sort_headings (hs : List Heading) : List Heading :=
  bubblePass (sortByPageAsc hs)

/-- The input of `extract_outline`: document text, the `pages` list of the
extractor metadata (empty when the `metadata`/`pages` keys are absent) and the
document title (the `get` default `"Untitled Document"` resolved by the
caller). -/
structure PdfData where
  text : List Char
  pages : List PdfPage
  title : List Char
deriving DecidableEq, Repr

/-- An entry of the final outline. -/
structure OutlineEntry where
  level : HLevel
  text : List Char
  page : Nat
deriving DecidableEq, Repr

/-- The record returned by `extract_outline`. -/
structure OutlineResult where
  title : List Char
  outline : List OutlineEntry
deriving DecidableEq, Repr

/-- Embedding of `OutlineExtractor.extract_outline`: empty text short-circuits
to an empty outline; otherwise the three strategies' candidates are
concatenated (font, then pattern, then content), deduplicated, ordered, and
converted to the output shape. -/
def extract_outline (pd : PdfData) : OutlineResult :=
  if pd.text = [] then ⟨pd.title, []⟩
  else
    let headings := extract_headings_by_font pd.pages ++
      extract_headings_by_pattern pd.text ++ extract_headings_by_content pd.text
    ⟨pd.title,
      (sort_headings (deduplicate_headings headings)).map
        (fun h => ⟨h.level, h.text, h.page⟩)⟩

/-- The Jaccard fallback of `calculate_document_similarity`: overlap of the
lowercase word sets of the two texts. -/
def jaccardWords (a b : List Char) : ℚ :=
  let w1 := (wsSplit (toLowerStr a)).toFinset
  let w2 := (wsSplit (toLowerStr b)).toFinset
  if w1 = ∅ ∨ w2 = ∅ then 0
  else if w1 ∪ w2 = ∅ then 0
  else ((w1 ∩ w2).card : ℚ) / ((w1 ∪ w2).card : ℚ)

/-- The token list the TF-IDF vectorizer builds from one text: sklearn's
default token pattern keeps maximal word-character runs of length at least 2,
lowercased. -/
def tfidfTokens (l : List Char) : List (List Char) :=
  (wordRuns (toLowerStr l)).filter (fun w => 2 ≤ w.length)

/-- Embedding of `PersonaAnalyzer.calculate_document_similarity` specialised
to two identical arguments, the case the reflexivity property is about.  The
external sklearn call `fit_transform([a, a])` succeeds exactly when the fitted
vocabulary is non-empty (with two identical documents every token occurs in
both, so `min_df=2` prunes nothing), and the cosine similarity of the two
identical non-zero TF-IDF rows it then produces is 1.  English stop-word
pruning is not modelled: it can only turn a success into a vocabulary failure,
and on identical texts both branches return 1 whenever the text has any word
at all, so the value below is unaffected. -/
def calculate_document_similarity_self (a : List Char) : ℚ :=
  if a = [] then 0
  else if !(tfidfTokens a).isEmpty then 1
  else jaccardWords a a

theorem toNat_toLowerCh_upper {c : Char} (h : isUpperCh c = true) :
    (toLowerCh c).toNat = c.toNat + 32 := by
  have hb : c.toNat ≤ 90 := by
    simp [isUpperCh] at h
    exact h.2
  simp only [toLowerCh, h, if_pos]
  have hv : c.val.toBitVec.toNat + 32 < 55296 := by
    have hb2 : c.toNat ≤ 90 := hb
    simp only [Char.toNat, UInt32.toNat] at hb2
    omega
  simp [Char.ofNat, Char.toNat, Nat.isValidChar, hv, Char.ofNatAux, UInt32.toNat,
    BitVec.toNat_ofNatLt]

theorem toLowerCh_not_upper {c : Char} (h : isUpperCh c = false) : toLowerCh c = c := by
  simp [toLowerCh, h]

theorem isSpaceChar_toLowerCh (c : Char) : isSpaceChar (toLowerCh c) = isSpaceChar c := by
  cases hu : isUpperCh c with
  | false => rw [toLowerCh_not_upper hu]
  | true =>
    have ht := toNat_toLowerCh_upper hu
    simp only [isUpperCh, Bool.and_eq_true, decide_eq_true_eq] at hu
    have h1 : isSpaceChar (toLowerCh c) = false := by
      simp only [isSpaceChar, ht, Bool.or_eq_false_iff, decide_eq_false_iff_not]
      omega
    have h2 : isSpaceChar c = false := by
      simp only [isSpaceChar, Bool.or_eq_false_iff, decide_eq_false_iff_not]
      omega
    rw [h1, h2]

theorem not_space_of_word {c : Char} (h : isWordCh c = true) : isSpaceChar c = false := by
  simp only [isWordCh, isUpperCh, isLowerCh, isDigitCh, Bool.or_eq_true,
    Bool.and_eq_true, decide_eq_true_eq] at h
  simp only [isSpaceChar, Bool.or_eq_false_iff, decide_eq_false_iff_not]
  omega

theorem not_space_of_digit {c : Char} (h : isDigitCh c = true) : isSpaceChar c = false := by
  simp only [isDigitCh, Bool.and_eq_true, decide_eq_true_eq] at h
  simp only [isSpaceChar, Bool.or_eq_false_iff, decide_eq_false_iff_not]
  omega

theorem not_word_of_space {c : Char} (h : isSpaceChar c = true) : isWordCh c = false := by
  simp only [isSpaceChar, Bool.or_eq_true, decide_eq_true_eq] at h
  simp only [isWordCh, isUpperCh, isLowerCh, isDigitCh, Bool.or_eq_false_iff,
    Bool.and_eq_false_iff, decide_eq_false_iff_not]
  omega

theorem not_upper_of_space {c : Char} (h : isSpaceChar c = true) : isUpperCh c = false := by
  simp only [isSpaceChar, Bool.or_eq_true, decide_eq_true_eq] at h
  simp only [isUpperCh, Bool.and_eq_false_iff, decide_eq_false_iff_not]
  omega

theorem head?_dropWhile_not (p : Char → Bool) (l : List Char) {c : Char}
    (h : (l.dropWhile p).head? = some c) : p c = false := by
  induction l with
  | nil => simp at h
  | cons a r ih =>
    rw [List.dropWhile_cons] at h
    by_cases hp : p a
    · rw [if_pos hp] at h
      exact ih h
    · rw [if_neg hp] at h
      simp only [List.head?_cons, Option.some.injEq] at h
      subst h
      exact Bool.eq_false_iff.mpr hp

theorem dropWhile_eq_self_of_head (p : Char → Bool) (l : List Char)
    (h : ∀ c, l.head? = some c → p c = false) : l.dropWhile p = l := by
  cases l with
  | nil => rfl
  | cons a r =>
    rw [List.dropWhile_cons, if_neg]
    simp [h a rfl]

theorem getLast?_cons_ne_nil {a : Char} {l : List Char} (h : l ≠ []) :
    (a :: l).getLast? = l.getLast? := by
  cases l with
  | nil => exact absurd rfl h
  | cons b r => exact List.getLast?_cons_cons

theorem getLast?_dropWhile_of_not (p : Char → Bool) {l : List Char} {c : Char}
    (h : l.getLast? = some c) (hc : p c = false) :
    (l.dropWhile p).getLast? = some c := by
  have hne : l.dropWhile p ≠ [] := by
    intro h0
    have hall := List.dropWhile_eq_nil_iff.mp h0
    have hmem : c ∈ l := List.mem_of_mem_getLast? (h ▸ rfl)
    rw [hall c hmem] at hc
    exact Bool.noConfusion hc
  obtain ⟨t, ht⟩ := List.dropWhile_suffix (l := l) p
  rw [← ht, List.getLast?_append_of_ne_nil t hne] at h
  exact h

theorem dropTrail_getLast?_not {l : List Char} {c : Char}
    (h : (dropTrail l).getLast? = some c) : isSpaceChar c = false := by
  unfold dropTrail at h
  rw [List.getLast?_reverse] at h
  exact head?_dropWhile_not _ _ h

theorem head?_of_dropTrail {l : List Char} {c : Char}
    (h : (dropTrail l).head? = some c) : l.head? = some c := by
  unfold dropTrail at h
  obtain ⟨t, ht⟩ := List.dropWhile_suffix (l := l.reverse) isSpaceChar
  have hl : l = (l.reverse.dropWhile isSpaceChar).reverse ++ t.reverse := by
    conv_lhs => rw [← List.reverse_reverse l, ← ht]
    rw [List.reverse_append]
  rw [hl, List.head?_append, h]
  rfl

theorem trim_head?_not {l : List Char} {c : Char}
    (h : (trimChars l).head? = some c) : isSpaceChar c = false := by
  unfold trimChars at h
  exact head?_dropWhile_not _ _ (head?_of_dropTrail h)

theorem trim_getLast?_not {l : List Char} {c : Char}
    (h : (trimChars l).getLast? = some c) : isSpaceChar c = false :=
  dropTrail_getLast?_not h

theorem trim_eq_self {l : List Char}
    (h1 : ∀ c, l.head? = some c → isSpaceChar c = false)
    (h2 : ∀ c, l.getLast? = some c → isSpaceChar c = false) : trimChars l = l := by
  unfold trimChars dropTrail
  have h3 : l.reverse.dropWhile isSpaceChar = l.reverse := by
    apply dropWhile_eq_self_of_head
    intro c hc
    rw [List.head?_reverse] at hc
    exact h2 c hc
  rw [dropWhile_eq_self_of_head _ _ h1, h3, List.reverse_reverse]

theorem trim_idem (l : List Char) : trimChars (trimChars l) = trimChars l :=
  trim_eq_self (fun _ hc => trim_head?_not hc) (fun _ hc => trim_getLast?_not hc)

theorem trim_sublist (l : List Char) : List.Sublist (trimChars l) l := by
  unfold trimChars dropTrail
  have h1 : List.Sublist (l.dropWhile isSpaceChar) l := (List.dropWhile_suffix _).sublist
  have h2 :
      List.Sublist ((l.dropWhile isSpaceChar).reverse.dropWhile isSpaceChar).reverse
        (l.dropWhile isSpaceChar) := by
    have h3 :=
      (List.dropWhile_suffix (l := (l.dropWhile isSpaceChar).reverse) isSpaceChar).sublist.reverse
    rwa [List.reverse_reverse] at h3
  exact h2.trans h1

theorem collapseWS_nil : collapseWS [] = [] := rfl

theorem collapseWS_one (c : Char) :
    collapseWS [c] = if isSpaceChar c then [' '] else [c] := rfl

theorem collapseWS_cons2 (c d : Char) (r : List Char) :
    collapseWS (c :: d :: r) =
      if isSpaceChar c then
        if isSpaceChar d then collapseWS (d :: r) else ' ' :: collapseWS (d :: r)
      else c :: collapseWS (d :: r) := rfl

theorem collapseWS_ne_nil (l : List Char) : l ≠ [] → collapseWS l ≠ [] := by
  induction l using collapseWS.induct with
  | case1 => exact fun h => absurd rfl h
  | case2 c hc =>
    intro _
    rw [collapseWS_one, if_pos hc]
    simp
  | case3 c hc =>
    intro _
    rw [collapseWS_one, if_neg hc]
    simp
  | case4 c d r hc hd ih =>
    intro _
    rw [collapseWS_cons2, if_pos hc, if_pos hd]
    exact ih (by simp)
  | case5 c d r hc hd ih =>
    intro _
    rw [collapseWS_cons2, if_pos hc, if_neg hd]
    simp
  | case6 c d r hc ih =>
    intro _
    rw [collapseWS_cons2, if_neg hc]
    simp

theorem head?_collapseWS {l : List Char} {c : Char}
    (h : l.head? = some c) (hc : isSpaceChar c = false) :
    (collapseWS l).head? = some c := by
  cases l with
  | nil => simp at h
  | cons a r =>
    simp only [List.head?_cons, Option.some.injEq] at h
    subst h
    cases r with
    | nil =>
      rw [collapseWS_one, if_neg (by simp [hc])]
      rfl
    | cons d rr =>
      rw [collapseWS_cons2, if_neg (by simp [hc])]
      rfl

theorem mem_collapseWS {c : Char} (l : List Char) :
    c ∈ collapseWS l → c = ' ' ∨ c ∈ l := by
  induction l using collapseWS.induct with
  | case1 =>
    intro h
    simp [collapseWS_nil] at h
  | case2 a ha =>
    intro h
    rw [collapseWS_one, if_pos ha] at h
    simp at h
    exact Or.inl h
  | case3 a ha =>
    intro h
    rw [collapseWS_one, if_neg ha] at h
    simp at h
    exact Or.inr (by simp [h])
  | case4 a d r ha hd ih =>
    intro h
    rw [collapseWS_cons2, if_pos ha, if_pos hd] at h
    rcases ih h with h1 | h1
    · exact Or.inl h1
    · exact Or.inr (List.mem_cons_of_mem _ h1)
  | case5 a d r ha hd ih =>
    intro h
    rw [collapseWS_cons2, if_pos ha, if_neg hd] at h
    rcases List.mem_cons.mp h with h1 | h1
    · exact Or.inl h1
    · rcases ih h1 with h2 | h2
      · exact Or.inl h2
      · exact Or.inr (List.mem_cons_of_mem _ h2)
  | case6 a d r ha ih =>
    intro h
    rw [collapseWS_cons2, if_neg ha] at h
    rcases List.mem_cons.mp h with h1 | h1
    · exact Or.inr (h1 ▸ List.mem_cons_self _ _)
    · rcases ih h1 with h2 | h2
      · exact Or.inl h2
      · exact Or.inr (List.mem_cons_of_mem _ h2)

theorem getLast?_collapseWS (l : List Char) {c : Char} :
    l.getLast? = some c → isSpaceChar c = false → (collapseWS l).getLast? = some c := by
  induction l using collapseWS.induct with
  | case1 =>
    intro h _
    simp at h
  | case2 a ha =>
    intro h hc
    simp only [List.getLast?_singleton, Option.some.injEq] at h
    subst h
    rw [ha] at hc
    exact absurd hc (by simp)
  | case3 a ha =>
    intro h hc
    simp only [List.getLast?_singleton, Option.some.injEq] at h
    subst h
    rw [collapseWS_one, if_neg ha]
    rfl
  | case4 a d r ha hd ih =>
    intro h hc
    rw [List.getLast?_cons_cons] at h
    rw [collapseWS_cons2, if_pos ha, if_pos hd]
    exact ih h hc
  | case5 a d r ha hd ih =>
    intro h hc
    rw [List.getLast?_cons_cons] at h
    have hne : collapseWS (d :: r) ≠ [] := collapseWS_ne_nil _ (by simp)
    rw [collapseWS_cons2, if_pos ha, if_neg hd, getLast?_cons_ne_nil hne]
    exact ih h hc
  | case6 a d r ha ih =>
    intro h hc
    rw [List.getLast?_cons_cons] at h
    have hne : collapseWS (d :: r) ≠ [] := collapseWS_ne_nil _ (by simp)
    rw [collapseWS_cons2, if_neg ha, getLast?_cons_ne_nil hne]
    exact ih h hc

theorem collapseWS_idem (l : List Char) : collapseWS (collapseWS l) = collapseWS l := by
  induction l using collapseWS.induct with
  | case1 => rfl
  | case2 a ha =>
    rw [collapseWS_one, if_pos ha]
    rfl
  | case3 a ha =>
    rw [collapseWS_one, if_neg ha, collapseWS_one, if_neg ha]
  | case4 a d r ha hd ih =>
    rw [collapseWS_cons2, if_pos ha, if_pos hd]
    exact ih
  | case5 a d r ha hd ih =>
    have hdr : (d :: r : List Char) ≠ [] := by simp
    rw [collapseWS_cons2, if_pos ha, if_neg hd]
    have hh : (collapseWS (d :: r)).head? = some d :=
      head?_collapseWS rfl (by simpa using hd)
    obtain ⟨t, ht⟩ : ∃ t, collapseWS (d :: r) = d :: t := by
      cases hcl : collapseWS (d :: r) with
      | nil => exact absurd hcl (collapseWS_ne_nil _ hdr)
      | cons e tt =>
        rw [hcl] at hh
        simp only [List.head?_cons, Option.some.injEq] at hh
        exact ⟨tt, by rw [hh]⟩
    rw [ht, collapseWS_cons2, if_pos (by decide), if_neg hd, ← ht, ih]
  | case6 a d r ha ih =>
    have hdr : (d :: r : List Char) ≠ [] := by simp
    rw [collapseWS_cons2, if_neg ha]
    obtain ⟨e, t, ht⟩ : ∃ e t, collapseWS (d :: r) = e :: t := by
      cases hcl : collapseWS (d :: r) with
      | nil => exact absurd hcl (collapseWS_ne_nil _ hdr)
      | cons e tt => exact ⟨e, tt, rfl⟩
    rw [ht, collapseWS_cons2, if_neg ha, ← ht, ih]

theorem mem_clean_allowed {c : Char} {t : List Char} (h : c ∈ clean_text t) :
    isAllowedCh c = true := by
  unfold clean_text at h
  split at h
  · simp at h
  · exact List.of_mem_filter h

theorem allowed_mem_collapse_trim {l : List Char} (hall : ∀ c ∈ l, isAllowedCh c = true) :
    ∀ c ∈ collapseWS (trimChars l), isAllowedCh c = true := by
  intro c hc
  rcases mem_collapseWS _ hc with h1 | h1
  · subst h1
    decide
  · exact hall c ((trim_sublist l).subset h1)

theorem clean_eq_collapse_trim {l : List Char} (hall : ∀ c ∈ l, isAllowedCh c = true) :
    clean_text l = collapseWS (trimChars l) := by
  unfold clean_text
  split
  · rename_i h
    subst h
    rfl
  · exact List.filter_eq_self.mpr (allowed_mem_collapse_trim hall)

theorem clean_clean_of_allowed {l : List Char} (hall : ∀ c ∈ l, isAllowedCh c = true) :
    clean_text (clean_text l) = clean_text l := by
  rw [clean_eq_collapse_trim hall]
  have hallv : ∀ c ∈ collapseWS (trimChars l), isAllowedCh c = true :=
    allowed_mem_collapse_trim hall
  rw [clean_eq_collapse_trim hallv]
  have htrim : trimChars (collapseWS (trimChars l)) = collapseWS (trimChars l) := by
    apply trim_eq_self
    · intro c hc
      rcases eq_or_ne (trimChars l) [] with h0 | h0
      · rw [h0, collapseWS_nil] at hc
        simp at hc
      · cases hh : (trimChars l).head? with
        | none => exact absurd (List.head?_eq_none_iff.mp hh) h0
        | some e =>
          have hens : isSpaceChar e = false := trim_head?_not hh
          have := head?_collapseWS hh hens
          rw [hc] at this
          simp only [Option.some.injEq] at this
          rw [this]
          exact hens
    · intro c hc
      rcases eq_or_ne (trimChars l) [] with h0 | h0
      · rw [h0, collapseWS_nil] at hc
        simp at hc
      · cases hh : (trimChars l).getLast? with
        | none => exact absurd (List.getLast?_eq_none_iff.mp hh) h0
        | some e =>
          have hens : isSpaceChar e = false := trim_getLast?_not hh
          have := getLast?_collapseWS _ hh hens
          rw [hc] at this
          simp only [Option.some.injEq] at this
          rw [this]
          exact hens
  rw [htrim, collapseWS_idem]

/-- C7: the claim that `clean_text` is idempotent is false — removing a
disallowed character can fuse two whitespace runs that the collapse step had
already normalised, so a second pass still changes the string.  Concretely
`clean_text "a @ b" = "a  b"` (two spaces) while a second application gives
`"a b"`. -/
theorem clean_text_not_idempotent :
    clean_text (chars "a @ b") = chars "a  b" ∧
      clean_text (clean_text (chars "a @ b")) = chars "a b" ∧
      clean_text (clean_text (chars "a @ b")) ≠ clean_text (chars "a @ b") := by
  refine ⟨by decide, by decide, by decide⟩

/-- C7 (amended): `clean_text` is idempotent from the second application on:
for every text `t`, `clean_text (clean_text (clean_text t)) =
clean_text (clean_text t)` — the output of one pass contains only allow-listed
characters, and on such strings one further pass reaches a fixed point of
stripping and whitespace collapsing. -/
theorem clean_text_idempotent_from_second (t : List Char) :
    clean_text (clean_text (clean_text t)) = clean_text (clean_text t) :=
  clean_clean_of_allowed (fun _ hc => mem_clean_allowed hc)

theorem insDesc_perm {α : Type} (key : α → ℚ) (x : α) (l : List α) :
    (insDesc key x l).Perm (x :: l) := by
  induction l with
  | nil => exact List.Perm.refl _
  | cons y r ih =>
    rw [insDesc]
    split
    · exact (ih.cons y).trans (List.Perm.swap x y r)
    · exact List.Perm.refl _

theorem sortDescBy_perm {α : Type} (key : α → ℚ) (l : List α) :
    (sortDescBy key l).Perm l := by
  induction l with
  | nil => exact List.Perm.refl _
  | cons x r ih =>
    rw [sortDescBy]
    exact (insDesc_perm key x (sortDescBy key r)).trans (ih.cons x)

theorem insDesc_pairwise {α : Type} (key : α → ℚ) (x : α) {l : List α}
    (h : l.Pairwise (fun a b => key b ≤ key a)) :
    (insDesc key x l).Pairwise (fun a b => key b ≤ key a) := by
  induction l with
  | nil => simp [insDesc]
  | cons y r ih =>
    rw [insDesc]
    rw [List.pairwise_cons] at h
    split
    · rename_i hlt
      rw [List.pairwise_cons]
      refine ⟨?_, ih h.2⟩
      intro b hb
      rcases List.mem_cons.mp ((insDesc_perm key x r).mem_iff.mp hb) with h1 | h1
      · exact h1 ▸ le_of_lt hlt
      · exact h.1 b h1
    · rename_i hge
      push_neg at hge
      rw [List.pairwise_cons]
      refine ⟨?_, List.pairwise_cons.mpr h⟩
      intro b hb
      rcases List.mem_cons.mp hb with h1 | h1
      · exact h1 ▸ hge
      · exact le_trans (h.1 b h1) hge

theorem sortDescBy_pairwise {α : Type} (key : α → ℚ) (l : List α) :
    (sortDescBy key l).Pairwise (fun a b => key b ≤ key a) := by
  induction l with
  | nil => simp [sortDescBy]
  | cons x r ih =>
    rw [sortDescBy]
    exact insDesc_pairwise key x ih

theorem insDesc_filter_eq {α : Type} (key : α → ℚ) (x : α) (l : List α) {q : ℚ}
    (hx : key x = q) :
    (insDesc key x l).filter (fun a => decide (key a = q)) =
      x :: l.filter (fun a => decide (key a = q)) := by
  induction l with
  | nil => simp [insDesc, List.filter, hx]
  | cons y r ih =>
    rw [insDesc]
    split
    · rename_i hlt
      have hy : (decide (key y = q)) = false := by
        simp only [decide_eq_false_iff_not]
        intro h0
        rw [hx] at hlt
        rw [h0] at hlt
        exact lt_irrefl q hlt
      rw [List.filter_cons, hy]
      simp only [Bool.false_eq_true, if_neg]
      rw [ih, List.filter_cons, hy]
      simp
    · rw [List.filter_cons]
      have hxq : (decide (key x = q)) = true := by simp [hx]
      rw [hxq]
      rfl

theorem insDesc_filter_ne {α : Type} (key : α → ℚ) (x : α) (l : List α) {q : ℚ}
    (hx : key x ≠ q) :
    (insDesc key x l).filter (fun a => decide (key a = q)) =
      l.filter (fun a => decide (key a = q)) := by
  induction l with
  | nil => simp [insDesc, List.filter, hx]
  | cons y r ih =>
    rw [insDesc]
    split
    · rw [List.filter_cons, List.filter_cons]
      cases hy : decide (key y = q) with
      | false => simpa using ih
      | true => simpa using ih
    · rw [List.filter_cons]
      simp only [decide_eq_true_eq]
      rw [if_neg (by simpa using hx)]

theorem sortDescBy_filter {α : Type} (key : α → ℚ) (l : List α) (q : ℚ) :
    (sortDescBy key l).filter (fun a => decide (key a = q)) =
      l.filter (fun a => decide (key a = q)) := by
  induction l with
  | nil => rfl
  | cons x r ih =>
    rw [sortDescBy]
    by_cases hx : key x = q
    · rw [insDesc_filter_eq key x _ hx, ih, List.filter_cons]
      simp [hx]
    · rw [insDesc_filter_ne key x _ hx, ih, List.filter_cons]
      simp [hx]

theorem sortDescBy_const {α : Type} (key : α → ℚ) {l : List α} {c : ℚ}
    (h : ∀ a ∈ l, key a = c) : sortDescBy key l = l := by
  induction l with
  | nil => rfl
  | cons x r ih =>
    rw [sortDescBy, ih (fun a ha => h a (List.mem_cons_of_mem _ ha))]
    cases r with
    | nil => rfl
    | cons y rr =>
      rw [insDesc, if_neg]
      rw [h x (List.mem_cons_self _ _), h y (List.mem_cons_of_mem _ (List.mem_cons_self _ _))]
      exact lt_irrefl c

theorem densityScore_nonneg (t : List Char) (pk jk : List (List Char)) :
    0 ≤ densityScore t pk jk := by
  unfold densityScore
  dsimp only
  split
  · exact le_refl 0
  · positivity

theorem densityScore_le_one (t : List Char) (pk jk : List (List Char)) :
    densityScore t pk jk ≤ 1 := by
  unfold densityScore
  dsimp only
  split
  · exact zero_le_one
  · rename_i hd
    rw [div_le_one (by positivity)]
    have h1 : countHits pk t ≤ pk.length := List.countP_le_length _
    have h2 : countHits jk t ≤ jk.length := List.countP_le_length _
    have : countHits pk t + countHits jk t ≤ pk.length + jk.length :=
      Nat.add_le_add h1 h2
    exact_mod_cast this

/-- C1: `rank_sections_by_relevance` assigns every section the density score
(keyword hits over total keyword count, 0 when there are no keywords), the
scores lie in `[0, 1]`, the output is a permutation of the scored input sorted
descending by score with ties kept in input order (the filter equation below
is exactly stability), `rank [] kw1 kw2 = []`, and with two empty keyword
lists every section scores 0 and the input order is preserved. -/
theorem rank_sections_spec (sections : List Section) (pk jk : List (List Char)) :
    (rank_sections_by_relevance sections pk jk).Perm
        (sections.map (fun s => ⟨s, densityScore (toLowerStr (joinSp s.content)) pk jk⟩)) ∧
    (∀ ss ∈ rank_sections_by_relevance sections pk jk,
        ss.score = densityScore (toLowerStr (joinSp ss.sec.content)) pk jk ∧
        0 ≤ ss.score ∧ ss.score ≤ 1) ∧
    (pk.length + jk.length = 0 →
        ∀ ss ∈ rank_sections_by_relevance sections pk jk, ss.score = 0) ∧
    (rank_sections_by_relevance sections pk jk).Pairwise (fun a b => b.score ≤ a.score) ∧
    (∀ q : ℚ,
        (rank_sections_by_relevance sections pk jk).filter (fun ss => decide (ss.score = q)) =
          (sections.map
              (fun s => ⟨s, densityScore (toLowerStr (joinSp s.content)) pk jk⟩)).filter
            (fun ss => decide (ss.score = q))) ∧
    rank_sections_by_relevance [] pk jk = [] ∧
    rank_sections_by_relevance sections [] [] = sections.map (fun s => ⟨s, 0⟩) := by
  have hmem : ∀ ss ∈ rank_sections_by_relevance sections pk jk,
      ss.score = densityScore (toLowerStr (joinSp ss.sec.content)) pk jk := by
    intro ss hss
    have h1 : ss ∈ sections.map
        (fun s => ⟨s, densityScore (toLowerStr (joinSp s.content)) pk jk⟩) :=
      (sortDescBy_perm _ _).mem_iff.mp hss
    obtain ⟨s, _, hs⟩ := List.mem_map.mp h1
    rw [← hs]
  refine ⟨sortDescBy_perm _ _, ?_, ?_, sortDescBy_pairwise _ _, ?_, rfl, ?_⟩
  · intro ss hss
    exact ⟨hmem ss hss, (hmem ss hss) ▸ densityScore_nonneg _ _ _,
      (hmem ss hss) ▸ densityScore_le_one _ _ _⟩
  · intro hd ss hss
    rw [hmem ss hss]
    unfold densityScore
    dsimp only
    rw [if_pos hd]
  · intro q
    exact sortDescBy_filter _ _ q
  · unfold rank_sections_by_relevance
    have hz : ∀ t : List Char, densityScore t [] [] = 0 := fun _ => rfl
    simp only [hz]
    apply sortDescBy_const
    intro a ha
    obtain ⟨s, _, hs⟩ := List.mem_map.mp ha
    rw [← hs]

theorem rank_sections_spec_witness :
    (⟨⟨chars "t", [chars "alpha"], 1, []⟩, (0 : ℚ)⟩ : ScoredSection).score = 0 :=
  (rank_sections_spec [⟨chars "t", [chars "alpha"], 1, []⟩] [] []).2.2.1 rfl
    ⟨⟨chars "t", [chars "alpha"], 1, []⟩, 0⟩ (by decide)

/-- C5: the sub-section analysis keeps at most 20 entries; every entry scores
strictly above 0.1 by the same density formula, its text is a first-three
paragraph of one of the given (top-ranked) sections truncated to 500
characters; the output is sorted descending by score and the sort is stable
over the pooled paragraph list; and a section all of whose first three
paragraphs score at most 0.1 contributes nothing. -/
theorem sub_section_analysis_spec (sections : List Section) (pk jk : List (List Char)) :
    (generate_sub_section_analysis sections pk jk).length ≤ 20 ∧
    (∀ e ∈ generate_sub_section_analysis sections pk jk,
        1/10 < e.importance_rank ∧ e.refined_text.length ≤ 500 ∧
        ∃ s ∈ sections, ∃ p ∈ (splitParas (joinSp s.content)).take 3,
          e = ⟨s.document, s.page, p.take 500, densityScore (toLowerStr p) pk jk⟩) ∧
    (generate_sub_section_analysis sections pk jk).Pairwise
        (fun a b => b.importance_rank ≤ a.importance_rank) ∧
    (∀ q : ℚ,
        (sortDescBy (fun e => e.importance_rank) (pooledSubs sections pk jk)).filter
            (fun e => decide (e.importance_rank = q)) =
          (pooledSubs sections pk jk).filter (fun e => decide (e.importance_rank = q))) ∧
    (∀ s : Section,
        (∀ p ∈ (splitParas (joinSp s.content)).take 3,
            densityScore (toLowerStr p) pk jk ≤ 1/10) →
          generate_sub_section_analysis [s] pk jk = []) := by
  refine ⟨?_, ?_, ?_, ?_, ?_⟩
  · unfold generate_sub_section_analysis
    rw [List.length_take]
    exact min_le_left _ _
  · intro e he
    have h1 : e ∈ sortDescBy (fun e => e.importance_rank) (pooledSubs sections pk jk) :=
      List.take_subset _ _ he
    have h2 : e ∈ pooledSubs sections pk jk := (sortDescBy_perm _ _).mem_iff.mp h1
    obtain ⟨s, hs, hin⟩ := List.mem_flatMap.mp h2
    obtain ⟨p, hp, heq⟩ := List.mem_filterMap.mp hin
    dsimp only at heq
    split at heq
    · rename_i hgt
      have he2 := (Option.some_inj.mp heq).symm
      subst he2
      refine ⟨hgt, ?_, s, hs, p, hp, rfl⟩
      rw [List.length_take]
      exact min_le_left _ _
    · exact absurd heq (by simp)
  · unfold generate_sub_section_analysis
    exact (sortDescBy_pairwise _ _).sublist (List.take_sublist _ _)
  · intro q
    exact sortDescBy_filter _ _ q
  · intro s hle
    unfold generate_sub_section_analysis
    have hpool : pooledSubs [s] pk jk = [] := by
      unfold pooledSubs
      rw [List.flatMap_cons, List.flatMap_nil, List.append_nil]
      rw [List.filterMap_eq_nil]
      intro p hp
      dsimp only
      rw [if_neg (not_lt.mpr (hle p hp))]
    rw [hpool]
    rfl

theorem sub_section_analysis_spec_witness :
    generate_sub_section_analysis [⟨chars "t", [chars "body text here"], 1, chars "doc"⟩]
        [chars "alpha"] [] = [] := by
  apply (sub_section_analysis_spec [⟨chars "t", [chars "body text here"], 1, chars "doc"⟩]
      [chars "alpha"] []).2.2.2.2 ⟨chars "t", [chars "body text here"], 1, chars "doc"⟩
  intro p hp
  have hps :
      (splitParas (joinSp
          (⟨chars "t", [chars "body text here"], 1, chars "doc"⟩ : Section).content)).take 3 =
        [chars "body text here"] := by decide
  rw [hps] at hp
  simp only [List.mem_singleton] at hp
  subst hp
  unfold densityScore
  dsimp only
  have hc : countHits [chars "alpha"] (toLowerStr (chars "body text here")) = 0 := by decide
  have hc2 : countHits [] (toLowerStr (chars "body text here")) = 0 := rfl
  rw [hc, hc2]
  norm_num

theorem splitNL_no_nl (l : List Char) : ∀ p ∈ splitNL l, ('\n' : Char) ∉ p := by
  induction l with
  | nil =>
    intro p hp
    simp only [splitNL, List.mem_singleton] at hp
    subst hp
    simp
  | cons c r ih =>
    intro p hp
    simp only [splitNL] at hp
    by_cases hc : c = '\n'
    · rw [if_pos hc] at hp
      rcases List.mem_cons.mp hp with h | h
      · subst h
        simp
      · exact ih p h
    · rw [if_neg hc] at hp
      cases hsr : splitNL r with
      | nil =>
        rw [hsr] at hp
        simp only [List.mem_singleton] at hp
        subst hp
        intro hmem
        rcases List.mem_singleton.mp hmem with h2
        exact hc h2.symm
      | cons q t =>
        rw [hsr] at hp
        rcases List.mem_cons.mp hp with h1 | h1
        · subst h1
          intro hmem
          rcases List.mem_cons.mp hmem with h2 | h2
          · exact hc h2.symm
          · exact ih q (by rw [hsr]; exact List.mem_cons_self _ _) h2
        · exact ih p (by rw [hsr]; exact List.mem_cons_of_mem _ h1)

theorem splitNN_no_nl (l : List Char) : ('\n' : Char) ∉ l → splitNN l = [l] := by
  induction l using splitNN.induct with
  | case1 => intro _; rfl
  | case2 c => intro _; rfl
  | case3 c d r hcd ih =>
    intro hno
    exact absurd (hcd.1 ▸ List.mem_cons_self c (d :: r)) hno
  | case4 c d r hne hnil ih =>
    intro hno
    have hdr := ih (fun hm => hno (List.mem_cons_of_mem _ hm))
    rw [hdr] at hnil
    exact absurd hnil (by simp)
  | case5 c d r hne q t hsc ih =>
    intro hno
    have hdr := ih (fun hm => hno (List.mem_cons_of_mem _ hm))
    simp only [splitNN, if_neg hne]
    rw [hdr]

theorem joinSp_cons2 (x y : List Char) (r : List (List Char)) :
    joinSp (x :: y :: r) = x ++ ' ' :: joinSp (y :: r) := rfl

theorem mem_joinSp {c : Char} (ls : List (List Char)) :
    c ∈ joinSp ls → c = ' ' ∨ ∃ x ∈ ls, c ∈ x := by
  induction ls using joinSp.induct with
  | case1 =>
    intro h
    simp [joinSp] at h
  | case2 x =>
    intro h
    exact Or.inr ⟨x, List.mem_singleton_self x, h⟩
  | case3 x y r ih =>
    intro h
    rw [joinSp_cons2] at h
    rcases List.mem_append.mp h with h1 | h1
    · exact Or.inr ⟨x, List.mem_cons_self _ _, h1⟩
    · rcases List.mem_cons.mp h1 with h2 | h2
      · exact Or.inl h2
      · rcases ih h2 with h3 | ⟨z, hz, hcz⟩
        · exact Or.inl h3
        · exact Or.inr ⟨z, List.mem_cons_of_mem _ hz, hcz⟩

theorem joinSp_ne_nil (ls : List (List Char)) (h : ls ≠ [])
    (hx : ∀ x ∈ ls, x ≠ []) : joinSp ls ≠ [] := by
  cases ls with
  | nil => exact absurd rfl h
  | cons x rest =>
    cases rest with
    | nil => exact hx x (List.mem_singleton_self x)
    | cons y r =>
      rw [joinSp_cons2]
      simp

theorem head?_joinSp (x : List Char) (rest : List (List Char)) (hx : x ≠ []) :
    (joinSp (x :: rest)).head? = x.head? := by
  cases rest with
  | nil => rfl
  | cons y r =>
    rw [joinSp_cons2, List.head?_append]
    cases x with
    | nil => exact absurd rfl hx
    | cons a xs => rfl

theorem getLast?_joinSp (ls : List (List Char)) :
    (∀ x ∈ ls, x ≠ []) → ∀ {c : Char}, (joinSp ls).getLast? = some c →
      ∃ x ∈ ls, x.getLast? = some c := by
  induction ls using joinSp.induct with
  | case1 =>
    intro _ c h
    simp [joinSp] at h
  | case2 x =>
    intro _ c h
    exact ⟨x, List.mem_singleton_self x, h⟩
  | case3 x y r ih =>
    intro hgood c h
    have htail : ∀ z ∈ y :: r, z ≠ [] := fun z hz => hgood z (List.mem_cons_of_mem _ hz)
    have hne : joinSp (y :: r) ≠ [] := joinSp_ne_nil _ (by simp) htail
    rw [joinSp_cons2, List.getLast?_append_of_ne_nil _ (by simp),
      getLast?_cons_ne_nil hne] at h
    obtain ⟨z, hz, h'⟩ := ih htail h
    exact ⟨z, List.mem_cons_of_mem _ hz, h'⟩

theorem splitParas_single {j : List Char} (hnl : ('\n' : Char) ∉ j) (hne : j ≠ [])
    (ht : trimChars j = j) : splitParas j = [j] := by
  unfold splitParas
  rw [splitNN_no_nl j hnl, List.map_singleton, ht, List.filter_singleton]
  have hje : j.isEmpty = false := by
    cases j with
    | nil => exact absurd rfl hne
    | cons a r => rfl
  rw [hje]
  rfl

theorem segLoop_invariant (lines : List (List Char)) :
    ∀ curT curC,
      (∀ x ∈ curC, x ≠ [] ∧ trimChars x = x ∧ ('\n' : Char) ∉ x) →
      (∀ l ∈ lines, ('\n' : Char) ∉ l) →
      ∀ s ∈ segLoop lines curT curC,
        s.content ≠ [] ∧ ∀ x ∈ s.content, x ≠ [] ∧ trimChars x = x ∧ ('\n' : Char) ∉ x := by
  induction lines with
  | nil =>
    intro curT curC hacc _ s hs
    rw [segLoop] at hs
    by_cases h0 : curC = []
    · rw [if_pos h0] at hs
      simp at hs
    · rw [if_neg h0] at hs
      simp only [List.mem_singleton] at hs
      subst hs
      exact ⟨h0, hacc⟩
  | cons l rest ih =>
    intro curT curC hacc hnl s hs
    have hnlrest : ∀ l' ∈ rest, ('\n' : Char) ∉ l' :=
      fun l' hl' => hnl l' (List.mem_cons_of_mem _ hl')
    rw [segLoop] at hs
    by_cases h1 : trimChars l = []
    · rw [if_pos h1] at hs
      exact ih curT curC hacc hnlrest s hs
    · rw [if_neg h1] at hs
      by_cases h2 : is_heading_candidate (trimChars l) = true
      · rw [if_pos h2] at hs
        rcases List.mem_append.mp hs with hL | hR
        · by_cases h3 : curC = []
          · rw [if_pos h3] at hL
            simp at hL
          · rw [if_neg h3] at hL
            simp only [List.mem_singleton] at hL
            subst hL
            exact ⟨h3, hacc⟩
        · exact ih (trimChars l) [] (by intro x hx; simp at hx) hnlrest s hR
      · rw [if_neg h2] at hs
        apply ih curT (curC ++ [trimChars l]) ?_ hnlrest s hs
        intro x hx
        rcases List.mem_append.mp hx with hx1 | hx1
        · exact hacc x hx1
        · rw [List.mem_singleton] at hx1
          subst hx1
          refine ⟨h1, trim_idem l, ?_⟩
          intro hmem
          exact hnl l (List.mem_cons_self _ _) ((trim_sublist l).subset hmem)

/-- C9: every section produced by `segment_text_by_sections` has a non-empty
content list of non-blank, stripped, newline-free lines; hence joining the
content with single spaces yields a string with no blank-line boundary, its
`'\n\n'` split has exactly one paragraph, and the first-three-paragraphs limit
of the sub-section step never selects more than that single whole-content
paragraph. -/
theorem segment_sections_spec (text : List Char) :
    ∀ s ∈ segment_text_by_sections text,
      s.content ≠ [] ∧
      (∀ x ∈ s.content, x ≠ [] ∧ trimChars x = x ∧ ('\n' : Char) ∉ x) ∧
      splitParas (joinSp s.content) = [joinSp s.content] ∧
      (splitParas (joinSp s.content)).take 3 = [joinSp s.content] ∧
      (splitParas (joinSp s.content)).length ≤ 1 := by
  intro s hs
  obtain ⟨hne, hgood⟩ :=
    segLoop_invariant (splitNL text) [] [] (by intro x hx; simp at hx)
      (splitNL_no_nl text) s hs
  have hnl : ('\n' : Char) ∉ joinSp s.content := by
    intro hmem
    rcases mem_joinSp _ hmem with h | ⟨x, hx, hcx⟩
    · exact absurd h (by decide)
    · exact (hgood x hx).2.2 hcx
  have hjne : joinSp s.content ≠ [] := joinSp_ne_nil _ hne (fun x hx => (hgood x hx).1)
  have htrim : trimChars (joinSp s.content) = joinSp s.content := by
    apply trim_eq_self
    · intro c hc
      cases hcont : s.content with
      | nil => exact absurd hcont hne
      | cons x rest =>
        have hmx : x ∈ s.content := by
          rw [hcont]
          exact List.mem_cons_self _ _
        rw [hcont, head?_joinSp x rest (hgood x hmx).1] at hc
        apply trim_head?_not (l := x)
        rw [(hgood x hmx).2.1]
        exact hc
    · intro c hc
      obtain ⟨x, hx, h'⟩ := getLast?_joinSp s.content (fun x hx => (hgood x hx).1) hc
      apply trim_getLast?_not (l := x)
      rw [(hgood x hx).2.1]
      exact h'
  have hsp := splitParas_single hnl hjne htrim
  exact ⟨hne, hgood, hsp, by rw [hsp]; rfl, by rw [hsp]; simp⟩

theorem segment_sections_spec_witness :
    (⟨chars "Introduction", [chars "body line"], 1, []⟩ : Section).content ≠ [] :=
  (segment_sections_spec (chars "Introduction\nbody line")
    ⟨chars "Introduction", [chars "body line"], 1, []⟩ (by decide)).1

/-- C2 counterexample: `analyze_documents` on an empty document list (and on a
list whose only document has empty text) returns an ordinary `AnalysisResult`
whose `extracted_sections` and `sub_section_analysis` are empty lists — no
explicit "no processable documents" condition is reported by the analyzer. -/
theorem analyze_documents_no_error_counterexample :
    analyze_documents [] (chars "Researcher") (chars "review the literature") =
      ⟨[], chars "Researcher", chars "review the literature", [], []⟩ ∧
    analyze_documents [⟨chars "a.pdf", [], chars "T"⟩] (chars "Researcher")
        (chars "review the literature") =
      ⟨[chars "a.pdf"], chars "Researcher", chars "review the literature", [], []⟩ := by
  constructor <;> rfl

/-- C2 (amended): for every persona and job, `analyze_documents` applied to an
empty document list, or to documents all of whose texts are empty, returns an
`AnalysisResult` with empty `extracted_sections` and `sub_section_analysis`
(and metadata echoing the inputs); it reports no error condition. -/
theorem analyze_documents_empty_texts (documents : List Document) (persona job : List Char)
    (h : ∀ d ∈ documents, d.text = []) :
    analyze_documents documents persona job =
      ⟨documents.map (fun d => d.file_path), persona, job, [], []⟩ := by
  unfold analyze_documents
  have hall : documents.flatMap (fun d =>
      if d.text = [] then []
      else (segment_text_by_sections d.text).map
        (fun s => { s with document := d.file_path, page := 1 })) = [] := by
    rw [List.flatMap_eq_nil_iff]
    intro d hd
    rw [if_pos (h d hd)]
  dsimp only
  rw [hall]
  rfl

theorem analyze_documents_empty_texts_witness :
    analyze_documents [⟨chars "a.pdf", [], chars "T"⟩] (chars "p") (chars "j") =
      ⟨[chars "a.pdf"], chars "p", chars "j", [], []⟩ :=
  analyze_documents_empty_texts [⟨chars "a.pdf", [], chars "T"⟩] (chars "p") (chars "j")
    (by decide)

theorem dedupAux_key_not_seen (hs : List Heading) :
    ∀ seen, ∀ h' ∈ dedupAux seen hs, dedupKey h' ∉ seen := by
  induction hs with
  | nil =>
    intro seen h' hmem
    simp [dedupAux] at hmem
  | cons g rest ih =>
    intro seen h' hmem
    rw [dedupAux] at hmem
    by_cases hk : dedupKey g ∈ seen
    · rw [if_pos hk] at hmem
      exact ih seen h' hmem
    · rw [if_neg hk] at hmem
      rcases List.mem_cons.mp hmem with h1 | h1
      · subst h1
        exact hk
      · have h2 := ih (dedupKey g :: seen) h' h1
        exact fun hc => h2 (List.mem_cons_of_mem _ hc)

theorem dedupAux_sublist (hs : List Heading) :
    ∀ seen, List.Sublist (dedupAux seen hs) hs := by
  induction hs with
  | nil =>
    intro seen
    rw [dedupAux]
  | cons g rest ih =>
    intro seen
    rw [dedupAux]
    by_cases hk : dedupKey g ∈ seen
    · rw [if_pos hk]
      exact (ih seen).cons g
    · rw [if_neg hk]
      exact (ih _).cons₂ g

theorem dedupAux_find (hs : List Heading) :
    ∀ seen, ∀ h' ∈ dedupAux seen hs,
      hs.find? (fun x => decide (dedupKey x = dedupKey h')) = some h' := by
  induction hs with
  | nil =>
    intro seen h' hmem
    simp [dedupAux] at hmem
  | cons g rest ih =>
    intro seen h' hmem
    rw [dedupAux] at hmem
    by_cases hk : dedupKey g ∈ seen
    · rw [if_pos hk] at hmem
      have hne : dedupKey g ≠ dedupKey h' := by
        intro he
        exact (dedupAux_key_not_seen rest seen h' hmem) (he ▸ hk)
      rw [List.find?_cons_of_neg _ (by simpa using hne)]
      exact ih seen h' hmem
    · rw [if_neg hk] at hmem
      rcases List.mem_cons.mp hmem with h1 | h1
      · subst h1
        rw [List.find?_cons_of_pos _ (by simp)]
      · have hnotin := dedupAux_key_not_seen rest (dedupKey g :: seen) h' h1
        have hne : dedupKey g ≠ dedupKey h' :=
          fun he => hnotin (he ▸ List.mem_cons_self _ _)
        rw [List.find?_cons_of_neg _ (by simpa using hne)]
        exact ih _ h' h1

theorem dedupAux_keys_nodup (hs : List Heading) :
    ∀ seen, ((dedupAux seen hs).map dedupKey).Nodup := by
  induction hs with
  | nil =>
    intro seen
    simp [dedupAux]
  | cons g rest ih =>
    intro seen
    rw [dedupAux]
    by_cases hk : dedupKey g ∈ seen
    · rw [if_pos hk]
      exact ih seen
    · rw [if_neg hk]
      rw [List.map_cons, List.nodup_cons]
      refine ⟨?_, ih _⟩
      intro hc
      obtain ⟨h', h'mem, h'eq⟩ := List.mem_map.mp hc
      apply dedupAux_key_not_seen rest (dedupKey g :: seen) h' h'mem
      rw [h'eq]
      exact List.mem_cons_self _ _

theorem dedupAux_covers (hs : List Heading) :
    ∀ seen, ∀ g ∈ hs,
      dedupKey g ∈ seen ∨ ∃ h' ∈ dedupAux seen hs, dedupKey h' = dedupKey g := by
  induction hs with
  | nil =>
    intro seen g hmem
    simp at hmem
  | cons g0 rest ih =>
    intro seen g hmem
    rw [dedupAux]
    by_cases hk : dedupKey g0 ∈ seen
    · rw [if_pos hk]
      rcases List.mem_cons.mp hmem with h1 | h1
      · subst h1
        exact Or.inl hk
      · exact ih seen g h1
    · rw [if_neg hk]
      rcases List.mem_cons.mp hmem with h1 | h1
      · subst h1
        exact Or.inr ⟨g, List.mem_cons_self _ _, rfl⟩
      · rcases ih (dedupKey g0 :: seen) g h1 with h2 | ⟨h', hm, he⟩
        · rcases List.mem_cons.mp h2 with h3 | h3
          · exact Or.inr ⟨g0, List.mem_cons_self _ _, h3.symm⟩
          · exact Or.inl h3
        · exact Or.inr ⟨h', List.mem_cons_of_mem _ hm, he⟩

/-- C3: deduplication keeps exactly one candidate per lowercased-and-stripped
text key: the output keys are pairwise distinct, the output is a subsequence
of the input, every retained candidate is the first input candidate with its
key (regardless of which strategy produced it), every input key is
represented, and of the two candidates "Introduction" and "introduction  "
exactly the first survives. -/
theorem deduplicate_headings_spec :
    (∀ hs : List Heading,
        ((deduplicate_headings hs).map dedupKey).Nodup ∧
        List.Sublist (deduplicate_headings hs) hs ∧
        (∀ h' ∈ deduplicate_headings hs,
            hs.find? (fun x => decide (dedupKey x = dedupKey h')) = some h') ∧
        (∀ g ∈ hs, ∃ h' ∈ deduplicate_headings hs, dedupKey h' = dedupKey g)) ∧
      deduplicate_headings
          [⟨chars "Introduction", .H1, 1, none⟩, ⟨chars "introduction  ", .H2, 2, some 5⟩] =
        [⟨chars "Introduction", .H1, 1, none⟩] := by
  constructor
  · intro hs
    refine ⟨dedupAux_keys_nodup hs [], dedupAux_sublist hs [], dedupAux_find hs [], ?_⟩
    intro g hmem
    rcases dedupAux_covers hs [] g hmem with h1 | h1
    · simp at h1
    · exact h1
  · decide

theorem deduplicate_headings_spec_witness :
    [(⟨chars "A b", HLevel.H1, 1, none⟩ : Heading)].find?
        (fun x => decide (dedupKey x = dedupKey ⟨chars "A b", HLevel.H1, 1, none⟩)) =
      some ⟨chars "A b", HLevel.H1, 1, none⟩ :=
  (deduplicate_headings_spec.1 [⟨chars "A b", HLevel.H1, 1, none⟩]).2.2.1
    ⟨chars "A b", HLevel.H1, 1, none⟩ (by decide)

theorem headSpace_of_spacesThenUpper {l : List Char} (h : spacesThenUpper l = true) :
    headSpace l = true := by
  cases l with
  | nil => simp [spacesThenUpper] at h
  | cons c r =>
    simp only [spacesThenUpper, Bool.and_eq_true] at h
    simp only [headSpace]
    exact h.1

theorem headSpace_false_of_digits1 {l r : List Char} (h : digits1 l = some r) :
    headSpace l = false := by
  cases l with
  | nil => simp [digits1] at h
  | cons c rest =>
    by_cases hd : isDigitCh c = true
    · simp only [headSpace]
      exact not_space_of_digit hd
    · simp [digits1, hd] at h

theorem digits1_of_afterIntDot {l r : List Char} (h : afterIntDot l = some r) :
    ∃ rr, digits1 l = some rr ∧ rr = '.' :: r := by
  unfold afterIntDot at h
  cases hd : digits1 l with
  | none =>
    rw [hd] at h
    simp at h
  | some rr =>
    rw [hd] at h
    cases rr with
    | nil => simp at h
    | cons c rest =>
      by_cases hc : c = '.'
      · subst hc
        have h2 : some rest = some r := h
        simp only [Option.some.injEq] at h2
        exact ⟨'.' :: rest, rfl, by rw [h2]⟩
      · exfalso
        cases c
        simp_all

theorem levelPatNdot_eq {t r : List Char} (ha : afterIntDot t = some r) :
    levelPatNdot t = headSpace r := by
  unfold levelPatNdot
  rw [ha]

theorem levelPatNN_eq {t r : List Char} (ha : afterIntDot t = some r) :
    levelPatNN t =
      (match digits1 r with
       | some r2 => headSpace r2
       | none => false) := by
  unfold levelPatNN
  rw [ha]

theorem levelPatNNN_eq {t r : List Char} (ha : afterIntDot t = some r) :
    levelPatNNN t =
      (match afterIntDot r with
       | some r2 =>
         (match digits1 r2 with
          | some r3 => headSpace r3
          | none => false)
       | none => false) := by
  unfold levelPatNNN
  rw [ha]

/-- C4 (amended): the pattern strategy's level rule is an ordered checklist —
`N.` is checked first and yields H1, then `N.N` yields H2, then `N.N.N` yields
H3 (not H1 as the specification claims); on the example document the strategy
produces exactly the two stated candidates. -/
theorem pattern_level_spec :
    (∀ t : List Char, patNdotUpper t = true → determine_level_by_pattern t = .H1) ∧
    (∀ t : List Char, patNNUpper t = true → determine_level_by_pattern t = .H2) ∧
    (∀ t : List Char, patNNNUpper t = true → determine_level_by_pattern t = .H3) ∧
    extract_headings_by_pattern
        (chars "1. Scope\n\nSome body text\n\n1.1 Detail\n\nMore text") =
      [⟨chars "1. Scope", .H1, 1, some 1⟩, ⟨chars "1.1 Detail", .H2, 1, some 5⟩] := by
  refine ⟨?_, ?_, ?_, by decide⟩
  · intro t h
    unfold patNdotUpper at h
    cases ha : afterIntDot t with
    | none => rw [ha] at h; simp at h
    | some r =>
      rw [ha] at h
      have h1 : spacesThenUpper r = true := h
      unfold determine_level_by_pattern
      rw [if_pos (by rw [levelPatNdot_eq ha]; exact headSpace_of_spacesThenUpper h1)]
  · intro t h
    unfold patNNUpper at h
    cases ha : afterIntDot t with
    | none => rw [ha] at h; simp at h
    | some r =>
      rw [ha] at h
      have h1 : (match digits1 r with
          | some r2 => spacesThenUpper r2
          | none => false) = true := h
      cases hd : digits1 r with
      | none => rw [hd] at h1; simp at h1
      | some r2 =>
        rw [hd] at h1
        have h2 : spacesThenUpper r2 = true := h1
        have hnd : levelPatNdot t = false := by
          rw [levelPatNdot_eq ha]
          exact headSpace_false_of_digits1 hd
        have hnn : levelPatNN t = true := by
          have e1 := levelPatNN_eq ha
          rw [hd] at e1
          have e2 : levelPatNN t = headSpace r2 := e1
          rw [e2]
          exact headSpace_of_spacesThenUpper h2
        unfold determine_level_by_pattern
        rw [if_neg (by simp [hnd]), if_pos hnn]
  · intro t h
    unfold patNNNUpper at h
    cases ha : afterIntDot t with
    | none => rw [ha] at h; simp at h
    | some r =>
      rw [ha] at h
      have h1 : (match afterIntDot r with
          | some r2 =>
            (match digits1 r2 with
             | some r3 => spacesThenUpper r3
             | none => false)
          | none => false) = true := h
      cases hb : afterIntDot r with
      | none => rw [hb] at h1; simp at h1
      | some r2 =>
        rw [hb] at h1
        have h2 : (match digits1 r2 with
            | some r3 => spacesThenUpper r3
            | none => false) = true := h1
        cases hc : digits1 r2 with
        | none => rw [hc] at h2; simp at h2
        | some r3 =>
          rw [hc] at h2
          have h3 : spacesThenUpper r3 = true := h2
          obtain ⟨rr, hrr, hrr2⟩ := digits1_of_afterIntDot hb
          have hnd : levelPatNdot t = false := by
            rw [levelPatNdot_eq ha]
            exact headSpace_false_of_digits1 hrr
          have hnn : levelPatNN t = false := by
            have e1 := levelPatNN_eq ha
            rw [hrr, hrr2] at e1
            have e2 : levelPatNN t = headSpace ('.' :: r2) := e1
            rw [e2]
            show isSpaceChar '.' = false
            decide
          have hnnn : levelPatNNN t = true := by
            have e1 := levelPatNNN_eq ha
            rw [hb] at e1
            have e2 : levelPatNNN t = (match digits1 r2 with
                | some r3 => headSpace r3
                | none => false) := e1
            rw [hc] at e2
            have e3 : levelPatNNN t = headSpace r3 := e2
            rw [e3]
            exact headSpace_of_spacesThenUpper h3
          unfold determine_level_by_pattern
          rw [if_neg (by simp [hnd]), if_neg (by simp [hnn]), if_pos hnnn]

theorem pattern_level_spec_witness :
    determine_level_by_pattern (chars "2. Title") = .H1 :=
  pattern_level_spec.1 (chars "2. Title") (by decide)

/-- C4 counterexample: the line "1.1.1 Scope" matches the `N.N.N Capital`
pattern, and the ordered checklist assigns it H3, not H1 as the claim
states. -/
theorem pattern_level_nnn_counterexample :
    patNNNUpper (chars "1.1.1 Scope") = true ∧
      determine_level_by_pattern (chars "1.1.1 Scope") = .H3 ∧
      determine_level_by_pattern (chars "1.1.1 Scope") ≠ .H1 := by
  refine ⟨by decide, by decide, by decide⟩

/-- C6 (amended): keyword resolution tries, in this exact precedence, (1) a
canonical profile key occurring as a substring of the lowercased input, (2)
any single word of a canonical key occurring in the input, and (3) failing
both, the first ten words longer than three characters extracted in order
from the job text, with duplicate words retained (not deduplicated); a persona
failing both matches falls back to the fixed generic keyword set, so keyword
resolution is total and never errors. -/
theorem keyword_resolution_spec (persona job : List Char) :
    (∀ kv, jobKeywordTable.find?
          (fun kv => containsSub kv.1 (toLowerStr job)) = some kv →
        extract_job_keywords job = kv.2) ∧
    (jobKeywordTable.find? (fun kv => containsSub kv.1 (toLowerStr job)) = none →
      ∀ kv, jobKeywordTable.find?
            (fun kv => (wsSplit kv.1).any (fun w => containsSub w (toLowerStr job))) =
          some kv →
        extract_job_keywords job = kv.2) ∧
    (jobKeywordTable.find? (fun kv => containsSub kv.1 (toLowerStr job)) = none →
      jobKeywordTable.find?
          (fun kv => (wsSplit kv.1).any (fun w => containsSub w (toLowerStr job))) = none →
      extract_job_keywords job =
        ((wordRuns (toLowerStr job)).filter (fun w => 3 < w.length)).take 10) ∧
    (∀ kv, personaKeywordTable.find?
          (fun kv => containsSub kv.1 (toLowerStr persona)) = some kv →
        extract_persona_keywords persona = kv.2) ∧
    (personaKeywordTable.find? (fun kv => containsSub kv.1 (toLowerStr persona)) = none →
      ∀ kv, personaKeywordTable.find?
            (fun kv => (wsSplit kv.1).any (fun w => containsSub w (toLowerStr persona))) =
          some kv →
        extract_persona_keywords persona = kv.2) ∧
    (personaKeywordTable.find? (fun kv => containsSub kv.1 (toLowerStr persona)) = none →
      personaKeywordTable.find?
          (fun kv => (wsSplit kv.1).any (fun w => containsSub w (toLowerStr persona))) =
        none →
      extract_persona_keywords persona = genericPersonaKeywords) := by
  refine ⟨?_, ?_, ?_, ?_, ?_, ?_⟩
  · intro kv h
    unfold extract_job_keywords
    dsimp only
    rw [h]
  · intro h0 kv h
    unfold extract_job_keywords
    dsimp only
    rw [h0, h]
  · intro h0 h1
    unfold extract_job_keywords
    dsimp only
    rw [h0, h1]
  · intro kv h
    unfold extract_persona_keywords
    dsimp only
    rw [h]
  · intro h0 kv h
    unfold extract_persona_keywords
    dsimp only
    rw [h0, h]
  · intro h0 h1
    unfold extract_persona_keywords
    dsimp only
    rw [h0, h1]

theorem keyword_resolution_spec_witness :
    extract_job_keywords (chars "qqqq wwww") =
      ((wordRuns (toLowerStr (chars "qqqq wwww"))).filter (fun w => 3 < w.length)).take 10 :=
  (keyword_resolution_spec (chars "x") (chars "qqqq wwww")).2.2.1 (by decide) (by decide)

/-- C6 counterexample: the job fallback is not a set of distinct words — for
the job text "zzzz zzzz", which matches no canonical profile, the code returns
the word "zzzz" twice. -/
theorem job_fallback_not_distinct :
    extract_job_keywords (chars "zzzz zzzz") = [chars "zzzz", chars "zzzz"] ∧
      ¬ (extract_job_keywords (chars "zzzz zzzz")).Nodup := by
  refine ⟨by decide, by decide⟩

theorem bubblePass_nil : bubblePass [] = [] := by
  rw [bubblePass]
  intro a b rest h
  exact List.noConfusion h

/-- C8: empty or missing document text produces an empty outline rather than
an error (whatever font metadata is present), the font strategy of an absent
`pages` list contributes no candidates, and `extract_outline` with absent font
blocks returns exactly the deduplicated, ordered pattern- and keyword-derived
candidates, unaffected by the missing font data. -/
theorem extract_outline_degraded_spec :
    (∀ (pages : List PdfPage) (title : List Char),
        extract_outline ⟨[], pages, title⟩ = ⟨title, []⟩) ∧
    extract_headings_by_font [] = [] ∧
    (∀ (text title : List Char),
        extract_outline ⟨text, [], title⟩ =
          ⟨title,
            (sort_headings (deduplicate_headings
                (extract_headings_by_pattern text ++
                  extract_headings_by_content text))).map
              (fun h => ⟨h.level, h.text, h.page⟩)⟩) := by
  refine ⟨?_, rfl, ?_⟩
  · intro pages title
    unfold extract_outline
    rw [if_pos rfl]
  · intro text title
    by_cases ht : text = []
    · subst ht
      unfold extract_outline
      rw [if_pos rfl]
      have h1 : deduplicate_headings
          (extract_headings_by_pattern [] ++ extract_headings_by_content []) = [] := by
        decide
      rw [h1]
      have h2 : sort_headings [] = [] := by
        unfold sort_headings
        rw [show sortByPageAsc [] = [] from rfl, bubblePass_nil]
      rw [h2]
      rfl
    · unfold extract_outline
      rw [if_neg ht]
      dsimp only
      rw [show extract_headings_by_font [] = [] from rfl, List.nil_append]

theorem wsSplitAux_all_space (l : List Char) :
    (∀ c ∈ l, isSpaceChar c = true) → wsSplitAux l [] = [] := by
  induction l with
  | nil => intro _; rfl
  | cons c r ih =>
    intro h
    rw [wsSplitAux, if_pos (h c (List.mem_cons_self _ _)), if_pos rfl]
    exact ih (fun d hd => h d (List.mem_cons_of_mem _ hd))

theorem wsSplitAux_ne_nil_acc (l : List Char) :
    ∀ acc, acc ≠ [] → wsSplitAux l acc ≠ [] := by
  induction l with
  | nil =>
    intro acc ha
    rw [wsSplitAux, if_neg ha]
    simp
  | cons c r ih =>
    intro acc ha
    rw [wsSplitAux]
    by_cases hc : isSpaceChar c = true
    · rw [if_pos hc, if_neg ha]
      simp
    · rw [if_neg hc]
      exact ih (c :: acc) (by simp)

theorem wsSplit_ne_nil {l : List Char} :
    (∃ c ∈ l, isSpaceChar c = false) → wsSplit l ≠ [] := by
  induction l with
  | nil =>
    rintro ⟨c, hc, _⟩
    simp at hc
  | cons c r ih =>
    rintro ⟨d, hd, hds⟩
    show wsSplitAux (c :: r) [] ≠ []
    by_cases hc : isSpaceChar c = true
    · have hdr : d ∈ r := by
        rcases List.mem_cons.mp hd with h1 | h1
        · rw [h1] at hds
          rw [hds] at hc
          exact absurd hc (by simp)
        · exact h1
      rw [wsSplitAux, if_pos hc, if_pos rfl]
      exact ih ⟨d, hdr, hds⟩
    · rw [wsSplitAux, if_neg hc]
      exact wsSplitAux_ne_nil_acc r [c] (by simp)

theorem wordRunsAux_no_word (l : List Char) :
    (∀ c ∈ l, isWordCh c = false) → wordRunsAux l [] = [] := by
  induction l with
  | nil => intro _; rfl
  | cons c r ih =>
    intro h
    rw [wordRunsAux, if_neg (by simp [h c (List.mem_cons_self _ _)]), if_pos rfl]
    exact ih (fun d hd => h d (List.mem_cons_of_mem _ hd))

theorem toLowerStr_all_space {a : List Char} (h : ∀ c ∈ a, isSpaceChar c = true) :
    ∀ c ∈ toLowerStr a, isSpaceChar c = true := by
  intro c hc
  obtain ⟨d, hd, hdc⟩ := List.mem_map.mp hc
  rw [← hdc, isSpaceChar_toLowerCh]
  exact h d hd

theorem tfidfTokens_empty_of_space {a : List Char}
    (h : ∀ c ∈ a, isSpaceChar c = true) : tfidfTokens a = [] := by
  unfold tfidfTokens wordRuns
  rw [wordRunsAux_no_word]
  · rfl
  · intro c hc
    exact not_word_of_space (toLowerStr_all_space h c hc)

/-- C10 (amended): `similarity(a, a)` is 1 for every text `a` containing at
least one non-whitespace character — on the TF-IDF path because the two
vectors are identical and non-zero, on the Jaccard fallback because the word
sets coincide and are non-empty — but for a non-empty whitespace-only `a`
(no tokens, no words) the vectorizer fails, the fallback sees empty word sets,
and the result is 0, not 1. -/
theorem similarity_self_spec (a : List Char) :
    ((∃ c ∈ a, isSpaceChar c = false) → calculate_document_similarity_self a = 1) ∧
    (a ≠ [] → (∀ c ∈ a, isSpaceChar c = true) →
      calculate_document_similarity_self a = 0) := by
  constructor
  · rintro ⟨c, hc, hcs⟩
    unfold calculate_document_similarity_self
    rw [if_neg (by rintro rfl; simp at hc)]
    by_cases ht : (tfidfTokens a).isEmpty = true
    · rw [if_neg (by simp [ht])]
      unfold jaccardWords
      have hw : wsSplit (toLowerStr a) ≠ [] := by
        apply wsSplit_ne_nil
        refine ⟨toLowerCh c, List.mem_map_of_mem _ hc, ?_⟩
        rw [isSpaceChar_toLowerCh]
        exact hcs
      have hfs : (wsSplit (toLowerStr a)).toFinset ≠ ∅ := by
        intro h0
        apply hw
        rcases List.eq_nil_or_concat (wsSplit (toLowerStr a)) with h1 | ⟨l₂, b, h1⟩
        · exact h1
        · exfalso
          have : b ∈ (wsSplit (toLowerStr a)).toFinset := by
            rw [List.mem_toFinset, h1]
            simp
          rw [h0] at this
          simp at this
      rw [if_neg (by simp [hfs]), Finset.inter_self, Finset.union_self,
        if_neg (by simp [hfs])]
      apply div_self
      have hcard : (wsSplit (toLowerStr a)).toFinset.card ≠ 0 :=
        Finset.card_ne_zero.mpr (Finset.nonempty_iff_ne_empty.mpr hfs)
      exact_mod_cast hcard
    · rw [if_pos (by simp [Bool.not_eq_true] at ht; simp [ht])]
  · intro hne hall
    unfold calculate_document_similarity_self
    rw [if_neg hne]
    rw [if_neg (by simp [tfidfTokens_empty_of_space hall])]
    unfold jaccardWords
    have hws : wsSplit (toLowerStr a) = [] :=
      wsSplitAux_all_space _ (toLowerStr_all_space hall)
    rw [hws]
    simp

theorem similarity_self_spec_witness :
    calculate_document_similarity_self (chars "hello world") = 1 :=
  (similarity_self_spec (chars "hello world")).1 ⟨'h', by decide, by decide⟩

/-- C10 counterexample: the single-space string is non-empty, yet
`similarity(" ", " ")` is 0 — the vectorizer has no tokens, so the Jaccard
fallback runs on two empty word sets and returns 0, refuting reflexivity for
every non-empty text. -/
theorem similarity_self_whitespace_counterexample :
    chars " " ≠ [] ∧ calculate_document_similarity_self (chars " ") = 0 := by
  constructor
  · decide
  · unfold calculate_document_similarity_self
    rw [if_neg (by decide), if_neg (by decide)]
    unfold jaccardWords
    rw [show wsSplit (toLowerStr (chars " ")) = [] from by decide]
    simp
